import Mathlib

/-!
# Shallow embedding of the lion-core ordered-collection family

This file embeds the core container family of the `lion-core` repository —
`Progression` (ordered sequence of Lion IDs), `Pile` (identifier-indexed,
order-preserving container of Elements) and the `Exchange` mailbox — and
proves the specification claims about them.

The `Progression` method bodies are taken verbatim from the repository's
Progression reference documentation, which quotes the implementation of
`__contains__`, `__getitem__`, `append`, `include`, `exclude`, `remove`
and `insert`.  Python `list` primitives (`insert`, slicing, `remove`) are
embedded with their exact CPython semantics (index clamping, first
occurrence removal, slice normalisation).

The bodies of the `Pile` mutating operations, the `Pile` set algebra and
the `Exchange` are not present in the repository snapshot (only their API
documentation and an executed notebook showing their behaviour), so those
definitions are modelled from the specification; each such definition's
doc comment says so.
-/

set_option maxHeartbeats 1000000

/-- Lion IDs (`ln_id`) are opaque strings (named `LnId` here since `Id` is taken in Lean). -/
abbrev LnId := String

/-- Error taxonomy of the core (spec §7): `ItemNotFoundError` etc. -/
inductive LionErr where
  | itemNotFound
  | typeMismatch
  | invalidOrder
  | invalidKey
deriving DecidableEq, Repr

/-- An Element/Entity: anything with a stable Lion ID; the payload
(`content`) stands for the rest of the object's state. -/
structure Element where
  ln_id : LnId
  content : Int
deriving DecidableEq, Repr

/-- `Progression`: ordered sequence of Lion IDs with an optional name
(attributes `name` and `order` of the source class). -/
structure Progression where
  name : Option String
  order : List LnId
deriving DecidableEq, Repr

namespace Progression

/-- The `for i in item: check = (i in order); if not check: return False`
loop of `Progression.__contains__`, with the running `check` accumulator
(initially `False`, so an empty list yields `False`). -/
def containsLoop (ord : List LnId) : List LnId → Bool → Bool
  | [], check => check
  | i :: rest, _ =>
      if ord.contains i then containsLoop ord rest true else false

/-- `Progression.__contains__`.  Source:
`if item is None or not self.order: return False`, then the conjunctive
loop over the (listified) input.  `Option.none` is Python's `None`;
`some l` is the input already coerced to a list of IDs. -/
def pyContains (p : Progression) (item : Option (List LnId)) : Bool :=
  match item with
  | Option.none => false
  | some l => if p.order = [] then false else containsLoop p.order l false

/-- Normalise one boundary of a Python slice (CPython `slice.indices`
semantics for step 1): negative values count from the end and clamp at 0,
positive values clamp at `n`. -/
def sliceBound (n : Nat) (v : Int) : Nat :=
  if v < 0 then (max (v + n) 0).toNat else min v.toNat n

/-- Python list slicing `l[start:stop]` with step 1 (the slices the
claims quantify over); `Option.none` stands for an omitted bound. -/
def pySlice (l : List α) (start stop : Option Int) : List α :=
  let s := sliceBound l.length (start.getD 0)
  let e := sliceBound l.length (stop.getD l.length)
  (l.drop s).take (e - s)

/-- The slice branch of `Progression.__getitem__`.  Source:
`a = self.order[key]; if not a: raise ItemNotFoundError(...);`
`if isinstance(key, slice): return self.__class__(order=a)`.
The rebuilt Progression gets the default `name=None`. -/
def getitemSlice (p : Progression) (start stop : Option Int) :
    Except LionErr Progression :=
  let a := pySlice p.order start stop
  if a = [] then Except.error LionErr.itemNotFound
  else Except.ok ⟨Option.none, a⟩

/-- `Progression.append`: `self.order.extend(validate_order(item))`. -/
def append (p : Progression) (items : List LnId) : Progression :=
  ⟨p.name, p.order ++ items⟩

/-- `Progression.include`:
`for i in item_: if i not in self.order: self.order.append(i)`. -/
def incl (p : Progression) (items : List LnId) : Progression :=
  ⟨p.name,
    items.foldl (fun ord i => if ord.contains i then ord else ord ++ [i])
      p.order⟩

/-- The `while i in self: self.remove(i)` loop of `Progression.exclude`:
repeatedly erase the first occurrence of `i` until none is left. -/
def eraseAllLoop (l : List LnId) (i : LnId) : List LnId :=
  if h : i ∈ l then eraseAllLoop (l.erase i) i else l
termination_by l.length
decreasing_by
  rw [List.length_erase_of_mem h]
  exact Nat.pred_lt (Nat.ne_of_gt (List.length_pos.mpr (List.ne_nil_of_mem h)))

/-- `Progression.exclude`:
`for i in validate_order(item): while i in self: self.remove(i)`. -/
def exclude (p : Progression) (items : List LnId) : Progression :=
  ⟨p.name, items.foldl eraseAllLoop p.order⟩

/-- The `for i in item: l_.remove(i)` body of `Progression.remove`,
run inside `contextlib.suppress(ValueError)`: Python `list.remove`
deletes the first occurrence and raises `ValueError` when absent, which
aborts the whole loop (result `none`). -/
def removeAllFirst : List LnId → List LnId → Option (List LnId)
  | l, [] => some l
  | l, i :: rest =>
      if i ∈ l then removeAllFirst (l.erase i) rest else Option.none

/-- `Progression.remove`: guarded by `if item in self` (the conjunctive
containment check); on success assigns the copied list, on a suppressed
`ValueError` (or on a failed guard) raises `ItemNotFoundError` with the
order untouched. -/
def remove (p : Progression) (items : List LnId) : Except LionErr Progression :=
  if pyContains p (some items) then
    match removeAllFirst p.order items with
    | some l => Except.ok ⟨p.name, l⟩
    | Option.none => Except.error LionErr.itemNotFound
  else Except.error LionErr.itemNotFound

/-- CPython `list.insert(idx, x)`: the insertion point is clamped —
negative indices count from the end and clamp at 0, indices beyond the
length insert at the end.  `list.insert` never raises for any index. -/
def pyInsertPos (n : Nat) (idx : Int) : Nat :=
  if idx < 0 then (max (idx + n) 0).toNat else min idx.toNat n

def pyInsert (l : List α) (idx : Int) (x : α) : List α :=
  l.take (pyInsertPos l.length idx) ++ x :: l.drop (pyInsertPos l.length idx)

/-- `Progression.insert`:
`for i in reversed(item_): self.order.insert(index, SysUtil.get_id(i))`.
The body contains no raise: the result is always `Except.ok`. -/
def insert (p : Progression) (index : Int) (items : List LnId) :
    Except LionErr Progression :=
  Except.ok ⟨p.name, items.reverse.foldl (fun l i => pyInsert l index i) p.order⟩

end Progression

/-- `Pile`: identifier-indexed, order-preserving container.  Attributes
from the API documentation: `pile_` (the `dict[str, T]` mapping Lion IDs
to items — a Python dict keyed by each stored element's own `ln_id`, so
it is embedded as the insertion-ordered list of stored elements, the key
of an entry `e` being `e.ln_id`) and `order` (the Progression of Lion
IDs giving the iteration order).  The `item_type`/`strict` options are
irrelevant to the claims proved here and are omitted. -/
structure Pile where
  order : List LnId
  pile_ : List Element
deriving DecidableEq, Repr

namespace Pile

/-- `P.pile_.keys()` in insertion order. -/
def keys (P : Pile) : List LnId := P.pile_.map Element.ln_id

/-- Modelled from the spec: `Pile.include` (body not under `src/`):
"adds entity only if its Identifier is not already a key; appends to the
order" — both structures are extended together. -/
def incl (P : Pile) (e : Element) : Pile :=
  if P.keys.contains e.ln_id then P
  else ⟨P.order ++ [e.ln_id], P.pile_ ++ [e]⟩

/-- Modelled from the spec: `Pile.exclude` (body not under `src/`):
"removes entity by Identifier if present from both map and order; no-op
otherwise". -/
def exclude (P : Pile) (i : LnId) : Pile :=
  ⟨P.order.filter (fun a => a ≠ i), P.pile_.filter (fun e => e.ln_id ≠ i)⟩

/-- Modelled from the spec: `Pile.remove` (body not under `src/`):
"like `exclude` but fails with `ItemNotFound` if absent"; on failure the
Pile is left unchanged (all-or-nothing, spec §7). -/
def remove (P : Pile) (i : LnId) : Except LionErr Pile :=
  if P.keys.contains i then Except.ok (P.exclude i)
  else Except.error LionErr.itemNotFound

/-- Modelled from the spec: `Pile.pop` (body not under `src/`):
"atomically removes and returns"; `ItemNotFound` when the key is absent
and no default is given. -/
def pop (P : Pile) (i : LnId) : Except LionErr (Element × Pile) :=
  match P.pile_.find? (fun e => e.ln_id = i) with
  | some e => Except.ok (e, P.exclude i)
  | Option.none => Except.error LionErr.itemNotFound

/-- Modelled from the spec: `Pile.append` (body not under `src/`):
position-aware addition at the end; the Pile uniqueness invariant
rejects an already-present Identifier. -/
def appendE (P : Pile) (e : Element) : Except LionErr Pile :=
  if P.keys.contains e.ln_id then Except.error LionErr.invalidKey
  else Except.ok ⟨P.order ++ [e.ln_id], P.pile_ ++ [e]⟩

/-- Modelled from the spec: `Pile.insert` (body not under `src/`):
"position-aware addition; `insert` must reject duplicate Identifiers";
the order gets the ID at the (clamped) position, the dict gains the
entry. -/
def insertAt (P : Pile) (idx : Int) (e : Element) : Except LionErr Pile :=
  if P.keys.contains e.ln_id then Except.error LionErr.invalidKey
  else Except.ok ⟨Progression.pyInsert P.order idx e.ln_id, P.pile_ ++ [e]⟩

/-- One upsert step of `Pile.update`: overwrite the stored entity when
the key exists (order untouched), insert at the end otherwise. -/
def upsert (P : Pile) (e : Element) : Pile :=
  if P.keys.contains e.ln_id then
    ⟨P.order, P.pile_.map (fun x => if x.ln_id = e.ln_id then e else x)⟩
  else ⟨P.order ++ [e.ln_id], P.pile_ ++ [e]⟩

/-- Modelled from the spec: `Pile.update` (body not under `src/`):
"for every entity in `other`, overwrite-or-insert by Identifier (upsert
semantics), preserving first-seen order for new keys". -/
def update (P : Pile) (other : List Element) : Pile :=
  other.foldl upsert P

/-- Fold `include` of a list of elements into a Pile (the building
block of `|` and `^`). -/
def inclList (P : Pile) (es : List Element) : Pile :=
  es.foldl incl P

/-- Modelled from the spec: `Pile.__or__` (body not under `src/`):
"new Pile containing entities present in either operand; on key
collision the left operand's entity wins" — the left operand followed by
the right operand's new entries in their own order (the executed
notebook shows `p1 | p2 == [0..3, 4..7]`). -/
def orP (A B : Pile) : Pile :=
  A.inclList B.pile_

/-- Modelled from the spec: `Pile.__and__` (body not under `src/`):
"only entities whose Identifier is present in both operands, taken from
the left operand", in the left operand's relative order. -/
def andP (A B : Pile) : Pile :=
  ⟨A.order.filter (fun a => B.keys.contains a),
   A.pile_.filter (fun e => B.keys.contains e.ln_id)⟩

/-- Modelled from the spec: `Pile.__sub__` (body not under `src/`):
"entities in left operand whose Identifier is not in right operand". -/
def subP (A B : Pile) : Pile :=
  ⟨A.order.filter (fun a => !B.keys.contains a),
   A.pile_.filter (fun e => !B.keys.contains e.ln_id)⟩

/-- Modelled from the spec: `Pile.__xor__` (body not under `src/`):
"entities whose Identifier is present in exactly one operand"; the
notebook shows left-only entries first, then right-only entries
(`p1 ^ p5 == [0..3, 8..11]`). -/
def xorP (A B : Pile) : Pile :=
  (A.subP B).inclList (B.pile_.filter (fun e => !A.keys.contains e.ln_id))

/-- Modelled from the spec: the in-place forms (`|=` here; `&=`, `^=`,
`-=` analogous) "mutate the left operand to the computed result"; the
right operand is not touched.  Mutation is embedded as a transformer on
the pair (left operand, right operand). -/
def iorPair (s : Pile × Pile) : Pile × Pile := (s.1.orP s.2, s.2)

end Pile

/-- The mutating `Pile` operations quantified over by the order↔map
consistency claim.  The set-algebra constructors carry the right-hand
pile. -/
inductive PileOp where
  | incl (e : Element)
  | exclude (i : LnId)
  | remove (i : LnId)
  | pop (i : LnId)
  | append (e : Element)
  | insert (idx : Int) (e : Element)
  | update (other : List Element)
  | ior (B : Pile)
  | iand (B : Pile)
  | ixor (B : Pile)
  | isub (B : Pile)

/-- Apply one mutating operation to a Pile.  An operation that raises
leaves the Pile exactly as it was (all-or-nothing propagation policy,
spec §7), so the state after an exception is the state before the
call. -/
def applyOp (P : Pile) : PileOp → Pile
  | PileOp.incl e => P.incl e
  | PileOp.exclude i => P.exclude i
  | PileOp.remove i =>
      match P.remove i with
      | Except.ok Q => Q
      | Except.error _ => P
  | PileOp.pop i =>
      match P.pop i with
      | Except.ok (_, Q) => Q
      | Except.error _ => P
  | PileOp.append e =>
      match P.appendE e with
      | Except.ok Q => Q
      | Except.error _ => P
  | PileOp.insert idx e =>
      match P.insertAt idx e with
      | Except.ok Q => Q
      | Except.error _ => P
  | PileOp.update other => P.update other
  | PileOp.ior B => P.orP B
  | PileOp.iand B => P.andP B
  | PileOp.ixor B => P.xorP B
  | PileOp.isub B => P.subP B

/-- Apply a sequence of mutating operations left to right. -/
def applyOps (P : Pile) (ops : List PileOp) : Pile :=
  ops.foldl applyOp P

/-- Well-formedness of a Pile: the order is duplicate-free and is a
permutation of the dict's key list (this is the strong, inductively
preserved form of the order↔map consistency invariant). -/
def Pile.wf (P : Pile) : Prop :=
  P.order.Nodup ∧ List.Perm P.order P.keys

/-- A `Package`: payload wrapped with sender and recipient Lion IDs and a
category tag (spec §3). -/
structure Package where
  sender : LnId
  recipient : LnId
  category : String
  payload : Int
deriving DecidableEq, Repr

/-- The `Exchange` mailbox: one inbound queue of pending arrivals and a
per-recipient mapping of outbound FIFO queues (spec §3/§4.4; the
implementation is not under `src/`). -/
structure Exchange where
  inbound : List Package
  outbound : List (LnId × List Package)
deriving DecidableEq, Repr

namespace Exchange

/-- The outbound FIFO queue currently held for a recipient (empty when
the recipient has no queue yet). -/
def queueOf (E : Exchange) (r : LnId) : List Package :=
  (E.outbound.lookup r).getD []

/-- Append a package at the tail of a recipient's queue in the
association list, creating the queue when absent. -/
def pushQueue : List (LnId × List Package) → LnId → Package →
    List (LnId × List Package)
  | [], r, p => [(r, [p])]
  | (k, q) :: rest, r, p =>
      if k = r then (k, q ++ [p]) :: rest else (k, q) :: pushQueue rest r p

/-- Modelled from the spec: `Exchange.send` (body not under `src/`):
"validates sender/recipient Identifiers are non-empty and distinct from
each other; appends the Package to the outbound Pile keyed by recipient
(FIFO); does not block". -/
def send (E : Exchange) (p : Package) : Except LionErr Exchange :=
  if p.sender = "" ∨ p.recipient = "" ∨ p.sender = p.recipient then
    Except.error LionErr.invalidKey
  else Except.ok ⟨E.inbound, pushQueue E.outbound p.recipient p⟩

/-- Send a list of packages in order, stopping at the first failure. -/
def sendAll (E : Exchange) : List Package → Except LionErr Exchange
  | [] => Except.ok E
  | p :: rest => match E.send p with
      | Except.ok E2 => sendAll E2 rest
      | Except.error err => Except.error err

/-- Modelled from the spec: `Exchange.drain_outbound` (body not under
`src/`): "atomically removes and returns all currently queued Packages
for a recipient, in FIFO order, leaving an empty queue; returns empty if
none". -/
def drainOutbound (E : Exchange) (r : LnId) : List Package × Exchange :=
  (E.queueOf r,
   ⟨E.inbound, E.outbound.map (fun kv => if kv.1 = r then (kv.1, []) else kv)⟩)

end Exchange

namespace Progression

theorem containsLoop_eq_false_of_absent {ord items : List LnId} {c : Bool}
    (h : ∃ j ∈ items, j ∉ ord) : containsLoop ord items c = false := by
  induction items generalizing c with
  | nil => simp at h
  | cons i rest ih =>
    obtain ⟨j, hj, hja⟩ := h
    by_cases hmem : i ∈ ord
    · have hc : ord.contains i = true := by simpa using hmem
      rcases List.mem_cons.mp hj with rfl | hjr
      · exact absurd hmem hja
      · simp only [containsLoop, hc, if_true]
        exact ih ⟨j, hjr, hja⟩
    · have hc : ord.contains i = false := by simpa using hmem
      simp only [containsLoop]
      rw [hc]
      simp

theorem containsLoop_eq_true_of_all {ord items : List LnId} {c : Bool}
    (hne : items ≠ []) (h : ∀ j ∈ items, j ∈ ord) :
    containsLoop ord items c = true := by
  induction items generalizing c with
  | nil => exact absurd rfl hne
  | cons i rest ih =>
    have hc : ord.contains i = true := by
      simpa using h i (List.mem_cons_self i rest)
    by_cases hrest : rest = []
    · subst hrest
      simp only [containsLoop]
      rw [hc]
      simp [containsLoop]
    · simp only [containsLoop, hc, if_true]
      exact ih hrest (fun j hj => h j (List.mem_cons_of_mem _ hj))

theorem pyContains_of_all_mem {p : Progression} {items : List LnId}
    (hne : items ≠ []) (h : ∀ j ∈ items, j ∈ p.order) :
    p.pyContains (some items) = true := by
  obtain ⟨j, hj⟩ := List.exists_mem_of_ne_nil items hne
  have : p.order ≠ [] := List.ne_nil_of_mem (h j hj)
  simpa [pyContains, this] using containsLoop_eq_true_of_all hne h

theorem pyContains_eq_false_of_absent {p : Progression} {items : List LnId}
    (h : ∃ j ∈ items, j ∉ p.order) : p.pyContains (some items) = false := by
  by_cases ho : p.order = [] <;> simp [pyContains, ho]
  exact containsLoop_eq_false_of_absent h

theorem removeAllFirst_single {l : List LnId} {i : LnId} (h : i ∈ l) :
    removeAllFirst l [i] = some (l.erase i) := by
  simp [removeAllFirst, h]

theorem removeAllFirst_all_present {xs l : List LnId}
    (hall : ∀ j ∈ xs, j ∈ l) (hnd : xs.Nodup) :
    removeAllFirst l xs = some (xs.foldl List.erase l) := by
  induction xs generalizing l with
  | nil => rfl
  | cons i rest ih =>
    have hi : i ∈ l := hall i (List.mem_cons_self i rest)
    show (if i ∈ l then removeAllFirst (l.erase i) rest else Option.none) = _
    rw [if_pos hi]
    have hnotin : i ∉ rest := (List.nodup_cons.mp hnd).1
    refine ih (fun j hj => ?_) (List.nodup_cons.mp hnd).2
    have hji : j ≠ i := by
      intro he
      subst he
      exact hnotin hj
    exact (List.mem_erase_of_ne hji).mpr (hall j (List.mem_cons_of_mem _ hj))

theorem erase_filter_ne (l : List LnId) (i : LnId) :
    (l.erase i).filter (fun a => a ≠ i) = l.filter (fun a => a ≠ i) := by
  induction l with
  | nil => simp
  | cons b t ih =>
    by_cases hb : b = i
    · subst hb
      rw [List.erase_cons_head, List.filter_cons_of_neg (by simp)]
    · rw [List.erase_cons_tail (by simp [hb]),
        List.filter_cons_of_pos (by simp [hb]),
        List.filter_cons_of_pos (by simp [hb]), ih]

theorem eraseAllLoop_eq_filter (l : List LnId) (i : LnId) :
    eraseAllLoop l i = l.filter (fun a => a ≠ i) := by
  have H : ∀ (n : Nat) (l : List LnId), l.length = n →
      eraseAllLoop l i = l.filter (fun a => a ≠ i) := by
    intro n
    induction n using Nat.strong_induction_on with
    | _ n ih =>
      intro l hn
      rw [eraseAllLoop]
      split
      · next hmem =>
          rw [ih (l.erase i).length
            (by
              rw [List.length_erase_of_mem hmem, hn]
              have hpos : 0 < n :=
                hn ▸ List.length_pos.mpr (List.ne_nil_of_mem hmem)
              omega)
            _ rfl]
          exact erase_filter_ne l i
      · next hmem =>
          symm
          refine List.filter_eq_self.mpr (fun a ha => ?_)
          have hne : a ≠ i := fun hai => hmem (hai ▸ ha)
          simp [hne]
  exact H l.length l rfl

theorem foldl_eraseAllLoop_eq_filter (items : List LnId) (l : List LnId) :
    items.foldl eraseAllLoop l = l.filter (fun a => !items.contains a) := by
  induction items generalizing l with
  | nil => simp
  | cons i rest ih =>
    simp only [List.foldl_cons, eraseAllLoop_eq_filter]
    rw [ih, List.filter_filter]
    congr 1
    funext a
    by_cases hai : a = i <;> by_cases har : rest.contains a <;>
      simp [hai, har]

/-- One step of the `include` loop: append the ID unless present. -/
def inclStep (ord : List LnId) (i : LnId) : List LnId :=
  if ord.contains i then ord else ord ++ [i]

theorem incl_eq_foldl_inclStep (p : Progression) (items : List LnId) :
    p.incl items = ⟨p.name, items.foldl inclStep p.order⟩ := rfl

theorem mem_foldl_inclStep_of_mem {l : List LnId} (items : List LnId)
    {a : LnId} (ha : a ∈ l) : a ∈ items.foldl inclStep l := by
  induction items generalizing l with
  | nil => exact ha
  | cons i rest ih =>
    simp only [List.foldl_cons]
    apply ih
    unfold inclStep
    by_cases h : l.contains i = true
    · rw [if_pos h]; exact ha
    · rw [if_neg h]; exact List.mem_append_left _ ha

theorem mem_foldl_inclStep_of_mem_items {l items : List LnId} {a : LnId}
    (ha : a ∈ items) : a ∈ items.foldl inclStep l := by
  induction items generalizing l with
  | nil => simp at ha
  | cons i rest ih =>
    simp only [List.foldl_cons]
    rcases List.mem_cons.mp ha with rfl | har
    · apply mem_foldl_inclStep_of_mem
      unfold inclStep
      by_cases h : l.contains a = true
      · rw [if_pos h]; simpa using h
      · rw [if_neg h]; exact List.mem_append_right _ (by simp)
    · exact ih har

theorem foldl_inclStep_of_all_mem {l items : List LnId}
    (h : ∀ j ∈ items, j ∈ l) : items.foldl inclStep l = l := by
  induction items with
  | nil => rfl
  | cons i rest ih =>
    have hc : l.contains i = true := by
      simpa using h i (List.mem_cons_self i rest)
    simp only [List.foldl_cons]
    rw [inclStep, if_pos hc]
    exact ih (fun j hj => h j (List.mem_cons_of_mem _ hj))

end Progression

namespace Pile

theorem incl_of_contains {P : Pile} {e : Element}
    (h : P.keys.contains e.ln_id = true) : P.incl e = P := by
  unfold incl
  rw [if_pos h]

theorem keys_incl_of_not_mem {P : Pile} {e : Element}
    (h : ¬P.keys.contains e.ln_id = true) :
    (P.incl e).keys = P.keys ++ [e.ln_id] := by
  unfold incl
  rw [if_neg h]
  simp [keys]

theorem incl_idem (P : Pile) (e : Element) : (P.incl e).incl e = P.incl e := by
  by_cases h : P.keys.contains e.ln_id = true
  · rw [incl_of_contains h]
    exact incl_of_contains h
  · have h2 : ((P.incl e).keys).contains e.ln_id = true := by
      rw [keys_incl_of_not_mem h]
      simp
    exact incl_of_contains h2

theorem map_lnid_filter (q : LnId → Bool) (l : List Element) :
    (l.filter (fun e => q e.ln_id)).map Element.ln_id =
      (l.map Element.ln_id).filter q := by
  induction l with
  | nil => rfl
  | cons e t ih =>
    simp only [List.filter_cons, List.map_cons]
    by_cases h : q e.ln_id = true
    · rw [if_pos h, if_pos h, List.map_cons, ih]
    · rw [if_neg h, if_neg h, ih]

theorem keys_exclude (P : Pile) (i : LnId) :
    (P.exclude i).keys = P.keys.filter (fun a => a ≠ i) :=
  map_lnid_filter (fun a => a ≠ i) P.pile_

theorem keys_andP (A B : Pile) :
    (A.andP B).keys = A.keys.filter (fun a => B.keys.contains a) :=
  map_lnid_filter (fun a => B.keys.contains a) A.pile_

theorem keys_subP (A B : Pile) :
    (A.subP B).keys = A.keys.filter (fun a => !B.keys.contains a) :=
  map_lnid_filter (fun a => !B.keys.contains a) A.pile_

theorem keys_upsert_map (e : Element) (l : List Element) :
    (l.map (fun x => if x.ln_id = e.ln_id then e else x)).map Element.ln_id =
      l.map Element.ln_id := by
  induction l with
  | nil => rfl
  | cons x t ih =>
    by_cases h : x.ln_id = e.ln_id
    · simp [h, ih]
    · simp [h, ih]

theorem wf_fresh_extend {P : Pile} (hwf : P.wf) {e : Element}
    (h : ¬P.keys.contains e.ln_id = true) :
    (Pile.mk (P.order ++ [e.ln_id]) (P.pile_ ++ [e])).wf := by
  obtain ⟨hnd, hperm⟩ := hwf
  have hnotk : e.ln_id ∉ P.keys := by simpa using h
  have hnoto : e.ln_id ∉ P.order := fun hm => hnotk (hperm.mem_iff.mp hm)
  constructor
  · show (P.order ++ [e.ln_id]).Nodup
    rw [List.nodup_append]
    refine ⟨hnd, List.nodup_singleton _, ?_⟩
    intro a ha hb
    rw [List.mem_singleton] at hb
    subst hb
    exact hnoto ha
  · show List.Perm (P.order ++ [e.ln_id])
      ((P.pile_ ++ [e]).map Element.ln_id)
    rw [List.map_append]
    exact hperm.append (List.Perm.refl _)

theorem wf_incl {P : Pile} (hwf : P.wf) (e : Element) : (P.incl e).wf := by
  by_cases h : P.keys.contains e.ln_id = true
  · rw [incl_of_contains h]
    exact hwf
  · unfold incl
    rw [if_neg h]
    exact wf_fresh_extend hwf h

theorem wf_exclude {P : Pile} (hwf : P.wf) (i : LnId) : (P.exclude i).wf := by
  obtain ⟨hnd, hperm⟩ := hwf
  constructor
  · exact hnd.filter _
  · show List.Perm (P.exclude i).order (P.exclude i).keys
    rw [keys_exclude]
    exact hperm.filter _

theorem wf_remove {P : Pile} (hwf : P.wf) (i : LnId) :
    (match P.remove i with
      | Except.ok Q => Q
      | Except.error _ => P).wf := by
  unfold remove
  by_cases h : P.keys.contains i = true
  · rw [if_pos h]
    exact wf_exclude hwf i
  · rw [if_neg h]
    exact hwf

theorem wf_pop {P : Pile} (hwf : P.wf) (i : LnId) :
    (match P.pop i with
      | Except.ok (_, Q) => Q
      | Except.error _ => P).wf := by
  unfold pop
  cases P.pile_.find? (fun e => e.ln_id = i) with
  | none => exact hwf
  | some e => exact wf_exclude hwf i

theorem wf_appendE {P : Pile} (hwf : P.wf) (e : Element) :
    (match P.appendE e with
      | Except.ok Q => Q
      | Except.error _ => P).wf := by
  unfold appendE
  by_cases h : P.keys.contains e.ln_id = true
  · rw [if_pos h]
    exact hwf
  · rw [if_neg h]
    exact wf_fresh_extend hwf h

theorem pyInsert_perm (l : List LnId) (idx : Int) (x : LnId) :
    List.Perm (Progression.pyInsert l idx x) (x :: l) := by
  unfold Progression.pyInsert
  refine List.Perm.trans List.perm_middle ?_
  rw [List.take_append_drop]

theorem wf_insertAt {P : Pile} (hwf : P.wf) (idx : Int) (e : Element) :
    (match P.insertAt idx e with
      | Except.ok Q => Q
      | Except.error _ => P).wf := by
  unfold insertAt
  by_cases h : P.keys.contains e.ln_id = true
  · rw [if_pos h]
    exact hwf
  · rw [if_neg h]
    obtain ⟨hnd, hperm⟩ := hwf
    have hnotk : e.ln_id ∉ P.keys := by simpa using h
    have hnoto : e.ln_id ∉ P.order := fun hm => hnotk (hperm.mem_iff.mp hm)
    have hins := pyInsert_perm P.order idx e.ln_id
    constructor
    · show (Progression.pyInsert P.order idx e.ln_id).Nodup
      rw [hins.nodup_iff]
      exact List.nodup_cons.mpr ⟨hnoto, hnd⟩
    · show List.Perm (Progression.pyInsert P.order idx e.ln_id)
        ((P.pile_ ++ [e]).map Element.ln_id)
      rw [List.map_append]
      refine hins.trans ?_
      refine List.Perm.trans ?_ (List.perm_append_comm)
      show List.Perm (e.ln_id :: P.order) ([e].map Element.ln_id ++ P.keys)
      exact List.Perm.cons _ hperm

theorem wf_upsert {P : Pile} (hwf : P.wf) (e : Element) : (P.upsert e).wf := by
  unfold upsert
  by_cases h : P.keys.contains e.ln_id = true
  · rw [if_pos h]
    obtain ⟨hnd, hperm⟩ := hwf
    refine ⟨hnd, ?_⟩
    show List.Perm P.order
      ((P.pile_.map (fun x => if x.ln_id = e.ln_id then e else x)).map
        Element.ln_id)
    rw [keys_upsert_map]
    exact hperm
  · rw [if_neg h]
    exact wf_fresh_extend hwf h

theorem wf_update {P : Pile} (hwf : P.wf) (other : List Element) :
    (P.update other).wf := by
  unfold update
  induction other generalizing P with
  | nil => exact hwf
  | cons e rest ih =>
    simp only [List.foldl_cons]
    exact ih (wf_upsert hwf e)

theorem wf_inclList {P : Pile} (hwf : P.wf) (es : List Element) :
    (P.inclList es).wf := by
  unfold inclList
  induction es generalizing P with
  | nil => exact hwf
  | cons e rest ih =>
    simp only [List.foldl_cons]
    exact ih (wf_incl hwf e)

theorem wf_orP {A : Pile} (hwf : A.wf) (B : Pile) : (A.orP B).wf :=
  wf_inclList hwf B.pile_

theorem wf_andP {A : Pile} (hwf : A.wf) (B : Pile) : (A.andP B).wf := by
  obtain ⟨hnd, hperm⟩ := hwf
  refine ⟨hnd.filter _, ?_⟩
  show List.Perm (A.andP B).order (A.andP B).keys
  rw [keys_andP]
  exact hperm.filter _

theorem wf_subP {A : Pile} (hwf : A.wf) (B : Pile) : (A.subP B).wf := by
  obtain ⟨hnd, hperm⟩ := hwf
  refine ⟨hnd.filter _, ?_⟩
  show List.Perm (A.subP B).order (A.subP B).keys
  rw [keys_subP]
  exact hperm.filter _

theorem wf_xorP {A : Pile} (hwf : A.wf) (B : Pile) : (A.xorP B).wf :=
  wf_inclList (wf_subP hwf B) _

end Pile

theorem wf_applyOp {P : Pile} (hwf : P.wf) (op : PileOp) : (applyOp P op).wf := by
  cases op with
  | incl e => exact Pile.wf_incl hwf e
  | exclude i => exact Pile.wf_exclude hwf i
  | remove i => exact Pile.wf_remove hwf i
  | pop i => exact Pile.wf_pop hwf i
  | append e => exact Pile.wf_appendE hwf e
  | insert idx e => exact Pile.wf_insertAt hwf idx e
  | update other => exact Pile.wf_update hwf other
  | ior B => exact Pile.wf_orP hwf B
  | iand B => exact Pile.wf_andP hwf B
  | ixor B => exact Pile.wf_xorP hwf B
  | isub B => exact Pile.wf_subP hwf B

theorem wf_applyOps {P : Pile} (hwf : P.wf) (ops : List PileOp) :
    (applyOps P ops).wf := by
  unfold applyOps
  induction ops generalizing P with
  | nil => exact hwf
  | cons op rest ih =>
    simp only [List.foldl_cons]
    exact ih (wf_applyOp hwf op)

/-- C1: for every well-formed Pile, after ANY sequence of mutating
operations (include, exclude, remove, pop, append, insert, update and
the in-place set-algebra forms — each leaving the Pile untouched when it
raises), the set of Identifiers of the order Progression equals the set
of keys of the Identifier→Entity mapping and the order's length equals
the number of mapping entries. -/
theorem pile_order_map_consistency (P : Pile) (ops : List PileOp)
    (hwf : P.wf) :
    (applyOps P ops).order.toFinset = (applyOps P ops).keys.toFinset ∧
    (applyOps P ops).order.length = (applyOps P ops).pile_.length := by
  obtain ⟨hnd, hperm⟩ := wf_applyOps hwf ops
  constructor
  · ext a
    simp [hperm.mem_iff]
  · rw [hperm.length_eq]
    exact List.length_map _ _

/-- Witness for C1 at a concrete input: a two-element Pile run through a
sequence exercising every operation kind, including failing `remove`,
`pop` and `insert` calls (absent key, duplicate key). -/
theorem pile_order_map_consistency_witness :
    (applyOps
        ⟨["ln-0", "ln-1"], [⟨"ln-0", 0⟩, ⟨"ln-1", 1⟩]⟩
        [PileOp.incl ⟨"ln-2", 2⟩,
         PileOp.remove "ln-0",
         PileOp.remove "ln-absent",
         PileOp.pop "ln-absent",
         PileOp.append ⟨"ln-3", 3⟩,
         PileOp.insert 1 ⟨"ln-4", 4⟩,
         PileOp.insert 0 ⟨"ln-3", 33⟩,
         PileOp.update [⟨"ln-1", 11⟩, ⟨"ln-5", 5⟩],
         PileOp.ior ⟨["ln-6"], [⟨"ln-6", 6⟩]⟩,
         PileOp.ixor ⟨["ln-6", "ln-7"], [⟨"ln-6", 6⟩, ⟨"ln-7", 7⟩]⟩,
         PileOp.iand ⟨["ln-7", "ln-1"], [⟨"ln-7", 7⟩, ⟨"ln-1", 1⟩]⟩,
         PileOp.isub ⟨["ln-7"], [⟨"ln-7", 7⟩]⟩,
         PileOp.exclude "ln-1"]).order.toFinset =
      (applyOps
        ⟨["ln-0", "ln-1"], [⟨"ln-0", 0⟩, ⟨"ln-1", 1⟩]⟩
        [PileOp.incl ⟨"ln-2", 2⟩,
         PileOp.remove "ln-0",
         PileOp.remove "ln-absent",
         PileOp.pop "ln-absent",
         PileOp.append ⟨"ln-3", 3⟩,
         PileOp.insert 1 ⟨"ln-4", 4⟩,
         PileOp.insert 0 ⟨"ln-3", 33⟩,
         PileOp.update [⟨"ln-1", 11⟩, ⟨"ln-5", 5⟩],
         PileOp.ior ⟨["ln-6"], [⟨"ln-6", 6⟩]⟩,
         PileOp.ixor ⟨["ln-6", "ln-7"], [⟨"ln-6", 6⟩, ⟨"ln-7", 7⟩]⟩,
         PileOp.iand ⟨["ln-7", "ln-1"], [⟨"ln-7", 7⟩, ⟨"ln-1", 1⟩]⟩,
         PileOp.isub ⟨["ln-7"], [⟨"ln-7", 7⟩]⟩,
         PileOp.exclude "ln-1"]).keys.toFinset ∧
    (applyOps
        ⟨["ln-0", "ln-1"], [⟨"ln-0", 0⟩, ⟨"ln-1", 1⟩]⟩
        [PileOp.incl ⟨"ln-2", 2⟩,
         PileOp.remove "ln-0",
         PileOp.remove "ln-absent",
         PileOp.pop "ln-absent",
         PileOp.append ⟨"ln-3", 3⟩,
         PileOp.insert 1 ⟨"ln-4", 4⟩,
         PileOp.insert 0 ⟨"ln-3", 33⟩,
         PileOp.update [⟨"ln-1", 11⟩, ⟨"ln-5", 5⟩],
         PileOp.ior ⟨["ln-6"], [⟨"ln-6", 6⟩]⟩,
         PileOp.ixor ⟨["ln-6", "ln-7"], [⟨"ln-6", 6⟩, ⟨"ln-7", 7⟩]⟩,
         PileOp.iand ⟨["ln-7", "ln-1"], [⟨"ln-7", 7⟩, ⟨"ln-1", 1⟩]⟩,
         PileOp.isub ⟨["ln-7"], [⟨"ln-7", 7⟩]⟩,
         PileOp.exclude "ln-1"]).order.length =
      (applyOps
        ⟨["ln-0", "ln-1"], [⟨"ln-0", 0⟩, ⟨"ln-1", 1⟩]⟩
        [PileOp.incl ⟨"ln-2", 2⟩,
         PileOp.remove "ln-0",
         PileOp.remove "ln-absent",
         PileOp.pop "ln-absent",
         PileOp.append ⟨"ln-3", 3⟩,
         PileOp.insert 1 ⟨"ln-4", 4⟩,
         PileOp.insert 0 ⟨"ln-3", 33⟩,
         PileOp.update [⟨"ln-1", 11⟩, ⟨"ln-5", 5⟩],
         PileOp.ior ⟨["ln-6"], [⟨"ln-6", 6⟩]⟩,
         PileOp.ixor ⟨["ln-6", "ln-7"], [⟨"ln-6", 6⟩, ⟨"ln-7", 7⟩]⟩,
         PileOp.iand ⟨["ln-7", "ln-1"], [⟨"ln-7", 7⟩, ⟨"ln-1", 1⟩]⟩,
         PileOp.isub ⟨["ln-7"], [⟨"ln-7", 7⟩]⟩,
         PileOp.exclude "ln-1"]).pile_.length :=
  pile_order_map_consistency
    ⟨["ln-0", "ln-1"], [⟨"ln-0", 0⟩, ⟨"ln-1", 1⟩]⟩ _ (by
      constructor
      · decide
      · decide)

/-- C8: `include` is idempotent, and adds an element only when its
Identifier is absent.  For the `Progression` (whose `include` body is in
the repository) this is proved for an arbitrary coerced input list; for
the `Pile` the spec-modelled `include` is used.  Identity is structural
equality: same keys, same order, same entities, same name. -/
theorem include_idempotent (p : Progression) (items : List LnId)
    (P : Pile) (e : Element) :
    (p.incl items).incl items = p.incl items ∧
    (P.incl e).incl e = P.incl e := by
  refine ⟨?_, Pile.incl_idem P e⟩
  rw [Progression.incl_eq_foldl_inclStep, Progression.incl_eq_foldl_inclStep]
  exact congrArg _ (Progression.foldl_inclStep_of_all_mem
    (fun j hj => Progression.mem_foldl_inclStep_of_mem_items hj))

namespace Pile

theorem mem_keys_incl {P : Pile} {e : Element} {a : LnId} :
    a ∈ (P.incl e).keys ↔ a ∈ P.keys ∨ a = e.ln_id := by
  by_cases h : P.keys.contains e.ln_id = true
  · rw [incl_of_contains h]
    have hm : e.ln_id ∈ P.keys := by simpa using h
    exact ⟨Or.inl, fun hc => hc.elim id (fun ha => ha ▸ hm)⟩
  · rw [keys_incl_of_not_mem h]
    simp

theorem mem_keys_inclList {P : Pile} {es : List Element} {a : LnId} :
    a ∈ (P.inclList es).keys ↔ a ∈ P.keys ∨ a ∈ es.map Element.ln_id := by
  induction es generalizing P with
  | nil => simp [inclList]
  | cons e rest ih =>
    show a ∈ ((P.incl e).inclList rest).keys ↔ _
    rw [ih, mem_keys_incl]
    simp [or_assoc]

theorem mem_keys_orP {A B : Pile} {a : LnId} :
    a ∈ (A.orP B).keys ↔ a ∈ A.keys ∨ a ∈ B.keys :=
  mem_keys_inclList

theorem mem_keys_andP {A B : Pile} {a : LnId} :
    a ∈ (A.andP B).keys ↔ a ∈ A.keys ∧ a ∈ B.keys := by
  rw [keys_andP, List.mem_filter]
  simp

theorem inclList_all_fresh {P : Pile} {es : List Element}
    (hnd : (es.map Element.ln_id).Nodup)
    (hfresh : ∀ k ∈ es.map Element.ln_id, k ∉ P.keys) :
    P.inclList es = ⟨P.order ++ es.map Element.ln_id, P.pile_ ++ es⟩ := by
  induction es generalizing P with
  | nil => simp [inclList]
  | cons e rest ih =>
    have hk : ¬P.keys.contains e.ln_id = true := by
      simpa using hfresh e.ln_id (by simp)
    show (P.incl e).inclList rest = _
    rw [incl]
    rw [if_neg hk]
    rw [ih (by simpa using hnd.of_cons) ?_]
    · simp
    · intro k hkm
      have h1 : k ∉ P.keys :=
        hfresh k (List.mem_cons_of_mem _ hkm)
      have h2 : k ≠ e.ln_id := by
        intro hke
        subst hke
        exact (List.nodup_cons.mp (by simpa using hnd)).1 hkm
      show k ∉ (Pile.mk (P.order ++ [e.ln_id]) (P.pile_ ++ [e])).keys
      unfold keys
      rw [List.map_append]
      simp only [List.mem_append]
      rintro (hin | hin)
      · exact h1 hin
      · simp at hin
        exact h2 hin

end Pile

/-- C4 counterexample: `|` is not commutative as Pile equality.  With
the singleton Piles A = {a} and B = {b}, `A | B` lists A's entity first
while `B | A` lists B's first, so the two results differ (different
`order`, different entry order). -/
theorem pile_or_commutativity_counterexample :
    Pile.orP ⟨["ln-a"], [⟨"ln-a", 0⟩]⟩ ⟨["ln-b"], [⟨"ln-b", 1⟩]⟩ ≠
    Pile.orP ⟨["ln-b"], [⟨"ln-b", 1⟩]⟩ ⟨["ln-a"], [⟨"ln-a", 0⟩]⟩ := by
  decide

/-- C4 amended: `|` and `&` are commutative at the level of Identifier
sets — `A | B` and `B | A` hold exactly the same keys, and so do
`A & B` and `B & A` — but not as full Pile equality, because the result
order (and, on key collisions, the winning entity) depends on the
operand side. -/
theorem pile_or_and_commutative_keysets (A B : Pile) (i : LnId) :
    (i ∈ (A.orP B).keys ↔ i ∈ (B.orP A).keys) ∧
    (i ∈ (A.andP B).keys ↔ i ∈ (B.andP A).keys) := by
  constructor
  · rw [Pile.mem_keys_orP, Pile.mem_keys_orP]
    exact or_comm
  · rw [Pile.mem_keys_andP, Pile.mem_keys_andP]
    exact and_comm

/-- C5: for disjoint four-element Piles (whose order agrees with their
dict), `P1 |= P2` turns the left operand into the eight-entity Pile
holding P1's entities in their original order followed by P2's, and the
right operand comes out of the in-place operation untouched. -/
theorem pile_ior_disjoint_eight (A B : Pile)
    (hdisj : ∀ k ∈ B.keys, k ∉ A.keys)
    (hBnd : B.keys.Nodup) (hBo : B.order = B.keys)
    (hA4 : A.pile_.length = 4) (hB4 : B.pile_.length = 4) :
    Pile.iorPair (A, B) = (⟨A.order ++ B.order, A.pile_ ++ B.pile_⟩, B) ∧
    (Pile.iorPair (A, B)).1.pile_.length = 8 := by
  have hor : A.orP B = ⟨A.order ++ B.keys, A.pile_ ++ B.pile_⟩ :=
    Pile.inclList_all_fresh hBnd hdisj
  constructor
  · show (A.orP B, B) = _
    rw [hor, hBo]
  · show (A.orP B).pile_.length = 8
    rw [hor]
    simp [hA4, hB4]

/-- Witness for C5 at a concrete input: two disjoint four-element Piles
combine into the eight-entity concatenation, with the right operand
returned unchanged. -/
theorem pile_ior_disjoint_eight_witness :
    Pile.iorPair
        (⟨["ln-0", "ln-1", "ln-2", "ln-3"],
          [⟨"ln-0", 0⟩, ⟨"ln-1", 1⟩, ⟨"ln-2", 2⟩, ⟨"ln-3", 3⟩]⟩,
         ⟨["ln-4", "ln-5", "ln-6", "ln-7"],
          [⟨"ln-4", 4⟩, ⟨"ln-5", 5⟩, ⟨"ln-6", 6⟩, ⟨"ln-7", 7⟩]⟩) =
      (⟨["ln-0", "ln-1", "ln-2", "ln-3"] ++ ["ln-4", "ln-5", "ln-6", "ln-7"],
        [⟨"ln-0", 0⟩, ⟨"ln-1", 1⟩, ⟨"ln-2", 2⟩, ⟨"ln-3", 3⟩] ++
          [⟨"ln-4", 4⟩, ⟨"ln-5", 5⟩, ⟨"ln-6", 6⟩, ⟨"ln-7", 7⟩]⟩,
       ⟨["ln-4", "ln-5", "ln-6", "ln-7"],
        [⟨"ln-4", 4⟩, ⟨"ln-5", 5⟩, ⟨"ln-6", 6⟩, ⟨"ln-7", 7⟩]⟩) ∧
    (Pile.iorPair
        (⟨["ln-0", "ln-1", "ln-2", "ln-3"],
          [⟨"ln-0", 0⟩, ⟨"ln-1", 1⟩, ⟨"ln-2", 2⟩, ⟨"ln-3", 3⟩]⟩,
         ⟨["ln-4", "ln-5", "ln-6", "ln-7"],
          [⟨"ln-4", 4⟩, ⟨"ln-5", 5⟩, ⟨"ln-6", 6⟩, ⟨"ln-7", 7⟩]⟩)).1.pile_.length
      = 8 :=
  pile_ior_disjoint_eight
    ⟨["ln-0", "ln-1", "ln-2", "ln-3"],
      [⟨"ln-0", 0⟩, ⟨"ln-1", 1⟩, ⟨"ln-2", 2⟩, ⟨"ln-3", 3⟩]⟩
    ⟨["ln-4", "ln-5", "ln-6", "ln-7"],
      [⟨"ln-4", 4⟩, ⟨"ln-5", 5⟩, ⟨"ln-6", 6⟩, ⟨"ln-7", 7⟩]⟩
    (by decide) (by decide) (by decide) (by decide) (by decide)

namespace Exchange

theorem lookup_pushQueue_self (ob : List (LnId × List Package)) (r : LnId)
    (p : Package) :
    (pushQueue ob r p).lookup r = some ((ob.lookup r).getD [] ++ [p]) := by
  induction ob with
  | nil => simp [pushQueue, List.lookup]
  | cons kv rest ih =>
    obtain ⟨k, q⟩ := kv
    by_cases h : k = r
    · subst h
      simp [pushQueue, List.lookup]
    · have hbeq : (r == k) = false := by
        simp
        exact fun he => h he.symm
      simp only [pushQueue, if_neg h, List.lookup, hbeq]
      exact ih

theorem lookup_zeroed (l : List (LnId × List Package)) (r : LnId) :
    (l.map (fun kv => if kv.1 = r then (kv.1, ([] : List Package)) else kv)).lookup r
      = (l.lookup r).map (fun _ => []) := by
  induction l with
  | nil => rfl
  | cons kv rest ih =>
    obtain ⟨k, q⟩ := kv
    rw [List.map_cons]
    by_cases h : k = r
    · subst h
      rw [if_pos (show (k, q).1 = k from rfl)]
      simp [List.lookup]
    · rw [if_neg (show ¬(k, q).1 = r from h)]
      have hbeq : (r == k) = false := by
        simp
        exact fun he => h he.symm
      simp only [List.lookup, hbeq]
      exact ih

theorem sendAll_cons_ok {E E2 : Exchange} {p : Package} {rest : List Package}
    (h : E.send p = Except.ok E2) :
    E.sendAll (p :: rest) = E2.sendAll rest := by
  have hdef : E.sendAll (p :: rest) =
      match E.send p with
      | Except.ok E3 => E3.sendAll rest
      | Except.error err => Except.error err := rfl
  rw [hdef, h]

theorem queueOf_drain_self (E : Exchange) (r : LnId) :
    ((E.drainOutbound r).2).queueOf r = [] := by
  show ((E.outbound.map
    (fun kv => if kv.1 = r then (kv.1, []) else kv)).lookup r).getD [] = []
  rw [lookup_zeroed]
  cases E.outbound.lookup r <;> rfl

end Exchange

/-- C6: sending Packages p1, p2, p3 (valid sender/recipient fields) to
the same recipient `r` of a Mailbox whose queue for `r` is empty and
then draining returns exactly `[p1, p2, p3]` in FIFO order, leaves the
queue for `r` empty, and draining the original empty queue returns an
empty list rather than an error. -/
theorem exchange_fifo_drain (E : Exchange) (r : LnId) (p1 p2 p3 : Package)
    (hq : E.queueOf r = [])
    (hr1 : p1.recipient = r) (hr2 : p2.recipient = r) (hr3 : p3.recipient = r)
    (hv1 : ¬(p1.sender = "" ∨ p1.recipient = "" ∨ p1.sender = p1.recipient))
    (hv2 : ¬(p2.sender = "" ∨ p2.recipient = "" ∨ p2.sender = p2.recipient))
    (hv3 : ¬(p3.sender = "" ∨ p3.recipient = "" ∨ p3.sender = p3.recipient)) :
    ∃ E3, E.sendAll [p1, p2, p3] = Except.ok E3 ∧
      (E3.drainOutbound r).1 = [p1, p2, p3] ∧
      ((E3.drainOutbound r).2).queueOf r = [] ∧
      (E.drainOutbound r).1 = [] := by
  refine ⟨⟨E.inbound,
    Exchange.pushQueue
      (Exchange.pushQueue (Exchange.pushQueue E.outbound r p1) r p2) r p3⟩,
    ?_, ?_, Exchange.queueOf_drain_self _ r, hq⟩
  · have s1 : E.send p1 =
        Except.ok ⟨E.inbound, Exchange.pushQueue E.outbound r p1⟩ := by
      unfold Exchange.send
      rw [if_neg hv1, hr1]
    have s2 : (⟨E.inbound, Exchange.pushQueue E.outbound r p1⟩ :
          Exchange).send p2 =
        Except.ok ⟨E.inbound,
          Exchange.pushQueue (Exchange.pushQueue E.outbound r p1) r p2⟩ := by
      unfold Exchange.send
      rw [if_neg hv2, hr2]
    have s3 : (⟨E.inbound,
          Exchange.pushQueue (Exchange.pushQueue E.outbound r p1) r p2⟩ :
          Exchange).send p3 =
        Except.ok ⟨E.inbound, Exchange.pushQueue
          (Exchange.pushQueue (Exchange.pushQueue E.outbound r p1) r p2)
          r p3⟩ := by
      unfold Exchange.send
      rw [if_neg hv3, hr3]
    rw [Exchange.sendAll_cons_ok s1, Exchange.sendAll_cons_ok s2,
      Exchange.sendAll_cons_ok s3]
    rfl
  · show (Exchange.queueOf _ r) = [p1, p2, p3]
    show ((Exchange.pushQueue (Exchange.pushQueue
        (Exchange.pushQueue E.outbound r p1) r p2) r p3).lookup r).getD []
      = [p1, p2, p3]
    rw [Exchange.lookup_pushQueue_self, Option.getD_some,
      Exchange.lookup_pushQueue_self, Option.getD_some,
      Exchange.lookup_pushQueue_self, Option.getD_some]
    have hq2 : (E.outbound.lookup r).getD [] = [] := hq
    rw [hq2]
    rfl

/-- Witness for C6 at a concrete input: three packages to recipient
`"ln-r"` drain in send order from an initially empty Exchange. -/
theorem exchange_fifo_drain_witness :
    ∃ E3, Exchange.sendAll ⟨[], []⟩
        [⟨"ln-s", "ln-r", "request", 1⟩,
         ⟨"ln-s", "ln-r", "response", 2⟩,
         ⟨"ln-t", "ln-r", "signal", 3⟩] = Except.ok E3 ∧
      (E3.drainOutbound "ln-r").1 =
        [⟨"ln-s", "ln-r", "request", 1⟩,
         ⟨"ln-s", "ln-r", "response", 2⟩,
         ⟨"ln-t", "ln-r", "signal", 3⟩] ∧
      ((E3.drainOutbound "ln-r").2).queueOf "ln-r" = [] ∧
      ((⟨[], []⟩ : Exchange).drainOutbound "ln-r").1 = [] :=
  exchange_fifo_drain ⟨[], []⟩ "ln-r"
    ⟨"ln-s", "ln-r", "request", 1⟩
    ⟨"ln-s", "ln-r", "response", 2⟩
    ⟨"ln-t", "ln-r", "signal", 3⟩
    (by decide) (by decide) (by decide) (by decide)
    (by decide) (by decide) (by decide)

/-- C2: `Progression.remove` deletes only the first occurrence of a
present Identifier (`List.erase` semantics), and when some requested
Identifier has no occurrence it raises `ItemNotFoundError`; the error
path performs no assignment to `order`, so the progression is exactly as
before the call. -/
theorem progression_remove_first_occurrence (p : Progression) (i : LnId)
    (items : List LnId) (j : LnId) (xs : List LnId)
    (hi : i ∈ p.order) (hj : j ∈ items) (hja : j ∉ p.order)
    (hxne : xs ≠ []) (hxnd : xs.Nodup) (hxall : ∀ k ∈ xs, k ∈ p.order) :
    p.remove [i] = Except.ok ⟨p.name, p.order.erase i⟩ ∧
    p.remove xs = Except.ok ⟨p.name, xs.foldl List.erase p.order⟩ ∧
    p.remove items = Except.error LionErr.itemNotFound := by
  refine ⟨?_, ?_, ?_⟩
  · have hc : p.pyContains (some [i]) = true :=
      Progression.pyContains_of_all_mem (by simp) (by simpa using hi)
    rw [Progression.remove, if_pos hc, Progression.removeAllFirst_single hi]
  · have hc : p.pyContains (some xs) = true :=
      Progression.pyContains_of_all_mem hxne hxall
    rw [Progression.remove, if_pos hc,
      Progression.removeAllFirst_all_present hxall hxnd]
  · have hc : p.pyContains (some items) = false :=
      Progression.pyContains_eq_false_of_absent ⟨j, hj, hja⟩
    rw [Progression.remove, if_neg (by simp [hc])]

/-- Witness for C2 at a concrete input: `["a","b","a"].remove("a")`
erases only the first `"a"`; `remove(["a","b"])` erases the first
occurrence of each; removing the absent `"c"` raises `ItemNotFound`. -/
theorem progression_remove_first_occurrence_witness :
    Progression.remove ⟨Option.none, ["ln-a", "ln-b", "ln-a"]⟩ ["ln-a"] =
      Except.ok ⟨Option.none, ["ln-b", "ln-a"]⟩ ∧
    Progression.remove ⟨Option.none, ["ln-a", "ln-b", "ln-a"]⟩
        ["ln-a", "ln-b"] =
      Except.ok ⟨Option.none, ["ln-a"]⟩ ∧
    Progression.remove ⟨Option.none, ["ln-a", "ln-b", "ln-a"]⟩ ["ln-c"] =
      Except.error LionErr.itemNotFound :=
  progression_remove_first_occurrence
    ⟨Option.none, ["ln-a", "ln-b", "ln-a"]⟩ "ln-a" ["ln-c"] "ln-c"
    ["ln-a", "ln-b"]
    (by decide) (by decide) (by decide) (by decide) (by decide) (by decide)

/-- C3: `Progression.exclude` removes every occurrence of every given
Identifier and nothing else (a filter of the order), and — taking any
progression `q` in which all the given Identifiers are absent — it is a
no-op there.  The function is total, so it never raises. -/
theorem progression_exclude_all_occurrences (p : Progression)
    (items : List LnId) (q : Progression)
    (habs : ∀ j ∈ items, j ∉ q.order) :
    p.exclude items = ⟨p.name, p.order.filter (fun a => !items.contains a)⟩ ∧
    q.exclude items = q := by
  constructor
  · show (⟨p.name, items.foldl Progression.eraseAllLoop p.order⟩ : Progression) = _
    rw [Progression.foldl_eraseAllLoop_eq_filter]
  · show (⟨q.name, items.foldl Progression.eraseAllLoop q.order⟩ : Progression) = q
    rw [Progression.foldl_eraseAllLoop_eq_filter,
      List.filter_eq_self.mpr (fun a ha => by
        have : a ∉ items := fun hai => habs a hai ha
        simpa using this)]

/-- Witness for C3 at a concrete input: excluding `"a"` from
`["a","b","a"]` removes both occurrences; excluding it from `["b"]`
leaves the progression unchanged. -/
theorem progression_exclude_all_occurrences_witness :
    Progression.exclude ⟨Option.none, ["ln-a", "ln-b", "ln-a"]⟩ ["ln-a"] =
      ⟨Option.none, ["ln-b"]⟩ ∧
    Progression.exclude ⟨Option.none, ["ln-b"]⟩ ["ln-a"] =
      ⟨Option.none, ["ln-b"]⟩ :=
  progression_exclude_all_occurrences
    ⟨Option.none, ["ln-a", "ln-b", "ln-a"]⟩ ["ln-a"]
    ⟨Option.none, ["ln-b"]⟩ (by decide)

namespace Progression

theorem pyInsert_at_prefix (u w : List LnId) (i : LnId) :
    pyInsert (u ++ w) (u.length : Int) i = u ++ i :: w := by
  unfold pyInsert pyInsertPos
  rw [if_neg (by omega), Int.toNat_natCast, List.length_append,
    min_eq_left (Nat.le_add_right _ _), List.take_left, List.drop_left]

theorem foldr_pyInsert_in_range (items l : List LnId) (n : Nat)
    (hle : n ≤ l.length) :
    items.foldr (fun i acc => pyInsert acc (n : Int) i) l =
      l.take n ++ items ++ l.drop n := by
  induction items with
  | nil => simp [List.take_append_drop]
  | cons i rest ih =>
    simp only [List.foldr_cons, ih]
    have htk : (l.take n).length = n := by
      rw [List.length_take]
      omega
    calc pyInsert (l.take n ++ rest ++ l.drop n) (n : Int) i
        = pyInsert (l.take n ++ (rest ++ l.drop n))
            (((l.take n).length : Nat) : Int) i := by
          rw [List.append_assoc, htk]
      _ = l.take n ++ i :: (rest ++ l.drop n) := pyInsert_at_prefix _ _ _
      _ = l.take n ++ (i :: rest) ++ l.drop n := by
          rw [List.append_assoc, List.cons_append]

end Progression

/-- C7 counterexample: inserting at index 5 into a one-element
progression does NOT fail — CPython `list.insert` clamps the
out-of-range index and appends at the end. -/
theorem progression_insert_out_of_range_clamps :
    Progression.insert ⟨Option.none, ["ln-a"]⟩ 5 ["ln-b"] =
      Except.ok ⟨Option.none, ["ln-a", "ln-b"]⟩ := by rfl

/-- C7 amended: for an in-range index `0 ≤ idx ≤ len`, `insert` places
the coerced elements at position `idx` shifting the suffix; and for
EVERY index (negative and out-of-range included) the call returns
normally — `list.insert` clamps, it never raises `IndexError`. -/
theorem progression_insert_in_range_and_total (p : Progression) (idx : Int)
    (items : List LnId) (h0 : 0 ≤ idx) (hle : idx.toNat ≤ p.order.length) :
    p.insert idx items =
      Except.ok ⟨p.name,
        p.order.take idx.toNat ++ items ++ p.order.drop idx.toNat⟩ ∧
    ∀ (idx2 : Int) (items2 : List LnId),
      ∃ q, p.insert idx2 items2 = Except.ok q := by
  refine ⟨?_, fun idx2 items2 => ⟨_, rfl⟩⟩
  obtain ⟨n, rfl⟩ : ∃ n : Nat, idx = (n : Int) :=
    ⟨idx.toNat, (Int.toNat_of_nonneg h0).symm⟩
  rw [Int.toNat_natCast] at hle
  unfold Progression.insert
  rw [List.foldl_reverse]
  simp only [Int.toNat_natCast]
  rw [Progression.foldr_pyInsert_in_range items p.order n hle]

/-- Witness for the amended C7 at a concrete input: inserting `"c"` at
index 1 of `["a","b"]` yields `["a","c","b"]`, and insertion is total. -/
theorem progression_insert_in_range_and_total_witness :
    Progression.insert ⟨Option.none, ["ln-a", "ln-b"]⟩ 1 ["ln-c"] =
      Except.ok ⟨Option.none, ["ln-a", "ln-c", "ln-b"]⟩ ∧
    ∀ (idx2 : Int) (items2 : List LnId),
      ∃ q, Progression.insert ⟨Option.none, ["ln-a", "ln-b"]⟩ idx2 items2 =
        Except.ok q :=
  progression_insert_in_range_and_total ⟨Option.none, ["ln-a", "ln-b"]⟩ 1
    ["ln-c"] (by decide) (by decide)

/-- C9 counterexample: slicing a non-empty progression with an
empty-range slice (`p[1:1]`) does not return an empty Progression — the
`if not a: raise ItemNotFoundError` guard fires and the call raises. -/
theorem progression_getitem_empty_slice_raises :
    Progression.getitemSlice ⟨Option.none, ["ln-a"]⟩ (some 1) (some 1) =
      Except.error LionErr.itemNotFound := by rfl

/-- C9 amended: for every slice whose selected range is NON-empty,
`__getitem__` returns a freshly built Progression (default name `None`)
whose order is exactly the selected sublist — a structurally independent
copy, not a view; an empty selection instead raises `ItemNotFound`. -/
theorem progression_getitem_slice_returns_copy (p : Progression)
    (start stop : Option Int)
    (h : Progression.pySlice p.order start stop ≠ []) :
    p.getitemSlice start stop =
      Except.ok ⟨Option.none, Progression.pySlice p.order start stop⟩ := by
  unfold Progression.getitemSlice
  rw [if_neg h]

/-- Witness for the amended C9 at a concrete input: `p[1:3]` on a
three-element progression returns the two selected Identifiers as a new
Progression. -/
theorem progression_getitem_slice_returns_copy_witness :
    Progression.getitemSlice ⟨some "n", ["ln-a", "ln-b", "ln-c"]⟩
        (some 1) (some 3) =
      Except.ok ⟨Option.none, ["ln-b", "ln-c"]⟩ :=
  progression_getitem_slice_returns_copy ⟨some "n", ["ln-a", "ln-b", "ln-c"]⟩
    (some 1) (some 3) (by decide)

/-- C10: the containment test of a Progression returns `False` for an
empty list (no vacuous truth: the loop's `check` accumulator starts
`False` and is returned unchanged) and `False` for `None`, for every
progression, non-empty ones included. -/
theorem progression_contains_empty_list_and_none (p : Progression) :
    p.pyContains (some []) = false ∧ p.pyContains Option.none = false := by
  refine ⟨?_, rfl⟩
  by_cases h : p.order = [] <;>
    simp [Progression.pyContains, Progression.containsLoop, h]
